import Mathlib

/-!
Verification of the recipe-app backend (Django REST project): a shallow
embedding of the ownership-scoped nested-resource reconciliation performed by
`RecipeSerializer` in `app/recipe/serializers.py`, the user-email
normalization of `UserManager.create_user` in `app/core/models.py`, and the
image upload-path generation `recipe_image_file_path` in `app/core/models.py`.

Database rows are embedded as plain structures; a table of Tag or Ingredient
rows is a `Store` (a list of rows plus a fresh-id counter mirroring the
autoincrement primary key).  Django machine integers fit comfortably in
`Int`/`Nat` for the inputs considered, and the `DecimalField` price is
embedded as an integer number of cents.  Fallible database calls return
`Except`, and operations that commit per statement (Django autocommit) return
the state reached so far together with an optional error.
-/

/-- A Tag or Ingredient row: `id` primary key, `user` the owning user id,
`name` the descriptor name.  Tag and Ingredient have the same shape in
`core/models.py`, so one row type serves both tables. -/
structure Entity where
  id : Nat
  user : Nat
  name : String
deriving DecidableEq

/-- A Tag or Ingredient table: the rows plus the next autoincrement id. -/
structure Store where
  entities : List Entity
  nextId : Nat
deriving DecidableEq

/-- Database error raised by `QuerySet.get` (hence `get_or_create`) when more
than one row matches the lookup keyword arguments. -/
inductive DbError where
  | multipleObjectsReturned
deriving DecidableEq

/-- The lookup keyword arguments of `get_or_create(user=auth_user, **tag)`
where `tag` is a validated `{name}` descriptor: an exact match on both the
owner and the name. -/
def entMatches (u : Nat) (n : String) (e : Entity) : Bool :=
  e.user == u && e.name == n

/-- All rows matching `(user, name)`, as the ORM `get` lookup would collect
them. -/
def Store.lookup (s : Store) (u : Nat) (n : String) : List Entity :=
  s.entities.filter (entMatches u n)

/-- `Tag.objects.get_or_create(user=auth_user, name=n)` (identically for
`Ingredient.objects`): return the matching row if exactly one exists, insert
a fresh row owned by `u` if none exists, and raise `MultipleObjectsReturned`
if several match. -/
def getOrCreate (s : Store) (u : Nat) (n : String) : Except DbError (Entity × Store) :=
  match s.lookup u n with
  | [] =>
    let e : Entity := ⟨s.nextId, u, n⟩
    .ok (e, ⟨s.entities ++ [e], s.nextId + 1⟩)
  | [e] => .ok (e, s)
  | _ :: _ :: _ => .error .multipleObjectsReturned

/-- `recipe.tags.add(obj)`: adding to a ManyToMany association set is
idempotent, so an already-associated id is left alone. -/
def addAssoc (assoc : List Nat) (i : Nat) : List Nat :=
  if i ∈ assoc then assoc else assoc ++ [i]

/-- The loop bodies of `RecipeSerializer._get_or_create_tags` and
`RecipeSerializer._get_or_create_ingredients`: walk the validated descriptor
names, get-or-create each row for the authenticated user, and add it to the
association set.  Each step commits immediately (autocommit), so on a
database error the state reached so far is returned together with the
error. -/
def getOrCreateList (s : Store) (u : Nat) (ds : List String) (assoc : List Nat) :
    List Nat × Store × Option DbError :=
  match ds with
  | [] => (assoc, s, none)
  | n :: rest =>
    match getOrCreate s u n with
    | .error e => (assoc, s, some e)
    | .ok (ent, s') => getOrCreateList s' u rest (addAssoc assoc ent.id)

/-- Well-formedness of a Tag or Ingredient table maintained by the database:
ids are below the autoincrement counter, ids are unique (primary key), and at
most one row exists per `(user, name)` pair (the discipline `get_or_create`
relies on; it is what makes the `get` step succeed). -/
def Store.Wf (s : Store) : Prop :=
  (∀ e ∈ s.entities, e.id < s.nextId) ∧
  (s.entities.map Entity.id).Nodup ∧
  (s.entities.map fun e => (e.user, e.name)).Nodup

instance (s : Store) : Decidable s.Wf :=
  inferInstanceAs (Decidable (_ ∧ _ ∧ _))

theorem nodup_map_inj {α β : Type _} {f : α → β} {l : List α}
    (h : (l.map f).Nodup) {a b : α} (ha : a ∈ l) (hb : b ∈ l)
    (hf : f a = f b) : a = b := by
  induction l with
  | nil => cases ha
  | cons x xs ih =>
    rw [List.map_cons, List.nodup_cons] at h
    rcases List.mem_cons.mp ha with rfl | ha' <;>
      rcases List.mem_cons.mp hb with rfl | hb'
    · rfl
    · exact absurd (hf ▸ List.mem_map_of_mem f hb') h.1
    · exact absurd (hf ▸ List.mem_map_of_mem f ha') h.1
    · exact ih h.2 ha' hb'

theorem Store.Wf.id_inj {s : Store} (h : s.Wf) {a b : Entity}
    (ha : a ∈ s.entities) (hb : b ∈ s.entities) (hid : a.id = b.id) : a = b :=
  nodup_map_inj h.2.1 ha hb hid

theorem Store.Wf.key_inj {s : Store} (h : s.Wf) {a b : Entity}
    (ha : a ∈ s.entities) (hb : b ∈ s.entities)
    (hu : a.user = b.user) (hn : a.name = b.name) : a = b :=
  nodup_map_inj h.2.2 ha hb (by simp [hu, hn])

theorem entMatches_iff {u : Nat} {n : String} {e : Entity} :
    entMatches u n e = true ↔ e.user = u ∧ e.name = n := by
  simp [entMatches]

theorem mem_addAssoc {assoc : List Nat} {i j : Nat} :
    j ∈ addAssoc assoc i ↔ j ∈ assoc ∨ j = i := by
  unfold addAssoc
  split
  · next h => constructor
              · exact fun hj => Or.inl hj
              · rintro (hj | rfl)
                · exact hj
                · exact h
  · simp

theorem addAssoc_nodup {assoc : List Nat} {i : Nat} (h : assoc.Nodup) :
    (addAssoc assoc i).Nodup := by
  unfold addAssoc
  split
  · exact h
  · next hni =>
    exact List.Nodup.append h (List.nodup_singleton i)
      (fun a ha hai => hni ((List.mem_singleton.mp hai) ▸ ha))

theorem lookup_eq_nil_iff {s : Store} {u : Nat} {n : String} :
    s.lookup u n = [] ↔ ∀ x ∈ s.entities, ¬(x.user = u ∧ x.name = n) := by
  unfold Store.lookup
  rw [List.filter_eq_nil_iff]
  constructor
  · intro h x hx hk
    exact h x hx (entMatches_iff.mpr hk)
  · intro h x hx hm
    exact h x hx (entMatches_iff.mp hm)

theorem getOrCreate_spec (s : Store) (u : Nat) (n : String) (hwf : s.Wf) :
    ∃ e s', getOrCreate s u n = .ok (e, s') ∧
      s'.Wf ∧ e.user = u ∧ e.name = n ∧ e ∈ s'.entities ∧
      (∀ x ∈ s.entities, x ∈ s'.entities) ∧
      (∀ x ∈ s'.entities, x ∈ s.entities ∨ x = e) ∧
      ((∃ x ∈ s.entities, x.user = u ∧ x.name = n) → s' = s) := by
  rcases hlk : s.lookup u n with _ | ⟨e₀, _ | ⟨e₁, tl⟩⟩
  · -- no matching row: a fresh one is inserted
    have hnone : ∀ x ∈ s.entities, ¬(x.user = u ∧ x.name = n) :=
      lookup_eq_nil_iff.mp hlk
    refine ⟨⟨s.nextId, u, n⟩, ⟨s.entities ++ [⟨s.nextId, u, n⟩], s.nextId + 1⟩,
      by simp [getOrCreate, hlk], ?_, rfl, rfl, ?_, ?_, ?_, ?_⟩
    · refine ⟨?_, ?_, ?_⟩
      · intro x hx
        rcases List.mem_append.mp hx with hx' | hx'
        · exact Nat.lt_trans (hwf.1 x hx') (Nat.lt_succ_self _)
        · rw [List.mem_singleton.mp hx']
          exact Nat.lt_succ_self _
      · rw [List.map_append]
        refine List.Nodup.append hwf.2.1 (by simp) ?_
        intro a ha ha'
        simp only [List.map_cons, List.map_nil, List.mem_singleton] at ha'
        rcases List.mem_map.mp ha with ⟨x, hx, rfl⟩
        exact Nat.lt_irrefl _ (ha' ▸ hwf.1 x hx)
      · rw [List.map_append]
        refine List.Nodup.append hwf.2.2 (by simp) ?_
        intro a ha ha'
        simp only [List.map_cons, List.map_nil, List.mem_singleton] at ha'
        rcases List.mem_map.mp ha with ⟨x, hx, rfl⟩
        rw [Prod.mk.injEq] at ha'
        exact hnone x hx ⟨ha'.1, ha'.2⟩
    · exact List.mem_append.mpr (Or.inr (List.mem_singleton_self _))
    · exact fun x hx => List.mem_append.mpr (Or.inl hx)
    · intro x hx
      rcases List.mem_append.mp hx with hx' | hx'
      · exact Or.inl hx'
      · exact Or.inr (List.mem_singleton.mp hx')
    · rintro ⟨x, hx, hk⟩
      exact absurd hk (hnone x hx)
  · -- exactly one matching row: it is returned and the store is unchanged
    have h0 : e₀ ∈ s.lookup u n := by
      rw [hlk]; exact List.mem_singleton_self _
    have h0' := List.mem_filter.mp h0
    have hk := entMatches_iff.mp h0'.2
    exact ⟨e₀, s, by simp [getOrCreate, hlk], hwf, hk.1, hk.2, h0'.1,
      fun x hx => hx, fun x hx => Or.inl hx, fun _ => rfl⟩
  · -- two matching rows contradict the (user, name) uniqueness invariant
    exfalso
    have hsub : List.Sublist (s.lookup u n) s.entities := List.filter_sublist _
    have hnd : (s.lookup u n).Nodup :=
      (List.Nodup.of_map _ hwf.2.1).sublist hsub
    rw [hlk] at hnd
    have hne : e₀ ≠ e₁ := by
      intro h
      rw [List.nodup_cons] at hnd
      exact hnd.1 (h ▸ List.mem_cons_self _ _)
    have h0 : e₀ ∈ s.lookup u n := by rw [hlk]; exact List.mem_cons_self _ _
    have h1 : e₁ ∈ s.lookup u n := by
      rw [hlk]; exact List.mem_cons_of_mem _ (List.mem_cons_self _ _)
    have h0' := List.mem_filter.mp h0
    have h1' := List.mem_filter.mp h1
    have k0 := entMatches_iff.mp h0'.2
    have k1 := entMatches_iff.mp h1'.2
    exact hne (hwf.key_inj h0'.1 h1'.1 (k0.1.trans k1.1.symm)
      (k0.2.trans k1.2.symm))

theorem getOrCreateList_spec (ds : List String) :
    ∀ (s : Store) (u : Nat) (assoc : List Nat), s.Wf → assoc.Nodup →
    ∃ assoc' s',
      getOrCreateList s u ds assoc = (assoc', s', none) ∧
      s'.Wf ∧
      (∀ x ∈ s.entities, x ∈ s'.entities) ∧
      (∀ x ∈ s'.entities, x ∈ s.entities ∨ (x.user = u ∧ x.name ∈ ds)) ∧
      assoc'.Nodup ∧
      (∀ i ∈ assoc, i ∈ assoc') ∧
      (∀ i ∈ assoc', i ∈ assoc ∨
        ∃ e, e ∈ s'.entities ∧ e.id = i ∧ e.user = u ∧ e.name ∈ ds) ∧
      (∀ n ∈ ds, ∃ e, e ∈ s'.entities ∧ e.user = u ∧ e.name = n ∧ e.id ∈ assoc') := by
  induction ds with
  | nil =>
    intro s u assoc hwf hnd
    exact ⟨assoc, s, rfl, hwf, fun x hx => hx, fun x hx => Or.inl hx, hnd,
      fun i hi => hi, fun i hi => Or.inl hi, by simp⟩
  | cons n rest ih =>
    intro s u assoc hwf hnd
    obtain ⟨e, s₁, hgoc, hwf₁, heu, hen, hes, hmono₁, hnew₁, _⟩ :=
      getOrCreate_spec s u n hwf
    obtain ⟨assoc', s', heq, hwf', hmono₂, hnew₂, hnd', hup₂, hchar₂, hname₂⟩ :=
      ih s₁ u (addAssoc assoc e.id) hwf₁ (addAssoc_nodup hnd)
    refine ⟨assoc', s', ?_, hwf', ?_, ?_, hnd', ?_, ?_, ?_⟩
    · simp [getOrCreateList, hgoc, heq]
    · exact fun x hx => hmono₂ x (hmono₁ x hx)
    · intro x hx
      rcases hnew₂ x hx with hx₁ | ⟨hxu, hxn⟩
      · rcases hnew₁ x hx₁ with hx₀ | rfl
        · exact Or.inl hx₀
        · exact Or.inr ⟨heu, by rw [hen]; exact List.mem_cons_self _ _⟩
      · exact Or.inr ⟨hxu, List.mem_cons_of_mem _ hxn⟩
    · intro i hi
      exact hup₂ i (mem_addAssoc.mpr (Or.inl hi))
    · intro i hi
      rcases hchar₂ i hi with hi' | ⟨e', he', hid, hu', hn'⟩
      · rcases mem_addAssoc.mp hi' with hi₀ | rfl
        · exact Or.inl hi₀
        · exact Or.inr ⟨e, hmono₂ e hes, rfl, heu, hen ▸ List.mem_cons_self _ _⟩
      · exact Or.inr ⟨e', he', hid, hu', List.mem_cons_of_mem _ hn'⟩
    · intro m hm
      rcases List.mem_cons.mp hm with rfl | hm'
      · exact ⟨e, hmono₂ e hes, heu, hen,
          hup₂ e.id (mem_addAssoc.mpr (Or.inr rfl))⟩
      · exact hname₂ m hm'

theorem getOrCreateList_noCreate (ds : List String) :
    ∀ (s : Store) (u : Nat) (assoc : List Nat), s.Wf →
    (∀ n ∈ ds, ∃ e, e ∈ s.entities ∧ e.user = u ∧ e.name = n) →
    ∃ assoc', getOrCreateList s u ds assoc = (assoc', s, none) := by
  induction ds with
  | nil => intro s u assoc _ _; exact ⟨assoc, rfl⟩
  | cons n rest ih =>
    intro s u assoc hwf hex
    obtain ⟨e, s₁, hgoc, _, _, _, _, _, _, hkeep⟩ := getOrCreate_spec s u n hwf
    obtain ⟨x, hx, hxu, hxn⟩ := hex n (List.mem_cons_self _ _)
    have hs₁ : s₁ = s := hkeep ⟨x, hx, hxu, hxn⟩
    rw [hs₁] at hgoc
    obtain ⟨assoc', heq⟩ := ih s u (addAssoc assoc e.id) hwf
      (fun m hm => hex m (List.mem_cons_of_mem _ hm))
    exact ⟨assoc', by simp [getOrCreateList, hgoc, heq]⟩

/-- A Recipe row (`core/models.py`): the scalar columns plus the two
ManyToMany association sets, held as lists of Tag and Ingredient ids.  The
`DecimalField` price is embedded as an integer number of cents and the
optional image column as its storage path. -/
structure Recipe where
  id : Nat
  user : Nat
  title : String
  description : String
  time_minutes : Int
  price : Int
  link : String
  tags : List Nat
  ingredients : List Nat
  image : Option String
deriving DecidableEq

/-- The two owned-entity tables touched by the recipe serializer. -/
structure Db where
  tagStore : Store
  ingStore : Store
deriving DecidableEq

def Db.Wf (db : Db) : Prop := db.tagStore.Wf ∧ db.ingStore.Wf

instance (db : Db) : Decidable db.Wf :=
  inferInstanceAs (Decidable (_ ∧ _))

/-- The scalar entries of `validated_data` left after popping `tags` and
`ingredients` in `RecipeSerializer.update`: on a partial update only the
supplied fields are present, so each is optional.  `user` and `description`
can never appear here because `RecipeSerializer.Meta` excludes them. -/
structure Scalars where
  title : Option String
  time_minutes : Option Int
  price : Option Int
  link : Option String
deriving DecidableEq

/-- The `for attr, value in validated_data.items(): setattr(instance, attr,
value)` loop followed by `instance.save()`: replace exactly the supplied
scalar fields. -/
def applyScalars (r : Recipe) (sc : Scalars) : Recipe :=
  { r with
    title := sc.title.getD r.title
    time_minutes := sc.time_minutes.getD r.time_minutes
    price := sc.price.getD r.price
    link := sc.link.getD r.link }

/-- Result of a serializer `create` or `update` call under per-statement
autocommit: the recipe row and the stores as committed when the call
finished, plus the database error if one was raised mid-way. -/
structure UpdateResult where
  recipe : Recipe
  db : Db
  error : Option DbError
deriving DecidableEq

/-- Second half of `RecipeSerializer.update`: the `if ingredients is not
None:` block (clear, then get-or-create each descriptor), followed by the
scalar `setattr` loop and `instance.save()`.  A database error aborts before
the scalar fields are applied. -/
def updateAfterTags (u : Nat) (db : Db) (r : Recipe)
    (ings? : Option (List String)) (sc : Scalars) : UpdateResult :=
  match ings? with
  | none => ⟨applyScalars r sc, db, none⟩
  | some ds =>
    match getOrCreateList db.ingStore u ds [] with
    | (assoc, st, some e) => ⟨{ r with ingredients := assoc }, ⟨db.tagStore, st⟩, some e⟩
    | (assoc, st, none) =>
      ⟨applyScalars { r with ingredients := assoc } sc, ⟨db.tagStore, st⟩, none⟩

/-- `RecipeSerializer.update(instance, validated_data)`
(`recipe/serializers.py`): pop the optional `tags` and `ingredients`
descriptor lists; for each list that is present, clear the corresponding
association set and get-or-create every named row for the authenticated
user; finally apply the remaining scalar fields and save.  `None` (absent)
skips a block entirely. -/
def RecipeSerializer.update (u : Nat) (db : Db) (r : Recipe)
    (tags? ings? : Option (List String)) (sc : Scalars) : UpdateResult :=
  match tags? with
  | none => updateAfterTags u db r ings? sc
  | some ds =>
    match getOrCreateList db.tagStore u ds [] with
    | (assoc, st, some e) => ⟨{ r with tags := assoc }, ⟨st, db.ingStore⟩, some e⟩
    | (assoc, st, none) =>
      updateAfterTags u ⟨st, db.ingStore⟩ { r with tags := assoc } ings? sc

/-- The scalar part of `validated_data` in `RecipeSerializer.create`; all
required fields are present after validation (`link` defaults to blank and
the excluded `description` to blank, `image` to null). -/
structure CreateFields where
  title : String
  time_minutes : Int
  price : Int
  link : String
deriving DecidableEq

/-- `RecipeSerializer.create(validated_data)` (`recipe/serializers.py`): pop
`tags` and `ingredients` with default `[]`, create the recipe row (the view
layer passes `user=`the authenticated user), then get-or-create both
descriptor lists into the fresh association sets.  `rid` stands for the
autoincrement id the database hands the new row. -/
def RecipeSerializer.create (u : Nat) (db : Db) (rid : Nat) (f : CreateFields)
    (tags ings : List String) : UpdateResult :=
  let r : Recipe :=
    ⟨rid, u, f.title, "", f.time_minutes, f.price, f.link, [], [], none⟩
  match getOrCreateList db.tagStore u tags [] with
  | (assoc, ts, some e) => ⟨{ r with tags := assoc }, ⟨ts, db.ingStore⟩, some e⟩
  | (assoc, ts, none) =>
    match getOrCreateList db.ingStore u ings [] with
    | (assoc2, st, some e) =>
      ⟨{ r with tags := assoc, ingredients := assoc2 }, ⟨ts, st⟩, some e⟩
    | (assoc2, st, none) =>
      ⟨{ r with tags := assoc, ingredients := assoc2 }, ⟨ts, st⟩, none⟩

/-- The raw body of an update request before serializer validation, one
optional entry per field a client might send, including an attempt to set
the `user` foreign key. -/
structure RawInput where
  user : Option Nat
  description : Option String
  title : Option String
  time_minutes : Option Int
  price : Option Int
  link : Option String
  tags : Option (List String)
  ingredients : Option (List String)

/-- Field selection performed by `RecipeSerializer.Meta`:
`exclude = ['user', 'description']` means neither field is declared on the
serializer, so any `user` (or `description`) entry in the request body is
dropped during validation and never reaches `validated_data`. -/
def validatedScalars (raw : RawInput) : Scalars :=
  ⟨raw.title, raw.time_minutes, raw.price, raw.link⟩

theorem reconcile_characterization (s : Store) (u : Nat) (ds : List String)
    (hwf : s.Wf) :
    ∃ assoc' s', getOrCreateList s u ds [] = (assoc', s', none) ∧ s'.Wf ∧
      (∀ x ∈ s.entities, x ∈ s'.entities) ∧
      assoc'.Nodup ∧
      (∀ i, i ∈ assoc' ↔
        ∃ e, e ∈ s'.entities ∧ e.id = i ∧ e.user = u ∧ e.name ∈ ds) ∧
      (∀ n ∈ ds, ∃ e, e ∈ s'.entities ∧ e.user = u ∧ e.name = n ∧ e.id ∈ assoc') := by
  obtain ⟨assoc', s', heq, hwf', hmono, _, hnd, _, hchar, hname⟩ :=
    getOrCreateList_spec ds s u [] hwf List.nodup_nil
  refine ⟨assoc', s', heq, hwf', hmono, hnd, ?_, hname⟩
  intro i
  constructor
  · intro hi
    rcases hchar i hi with hi' | h
    · cases hi'
    · exact h
  · rintro ⟨e, he, rfl, hu, hn⟩
    obtain ⟨e₀, he₀, hu₀, hn₀, hid₀⟩ := hname e.name hn
    have : e = e₀ := hwf'.key_inj he he₀ (hu.trans hu₀.symm) hn₀.symm
    rw [this]
    exact hid₀

/-- Exact post-state of one reconciliation pass over descriptor names `ds`
for owner `u`: the association set has no duplicates, holds precisely the
ids of rows named in `ds` and owned by `u` in the resulting table, holds
exactly one row per distinct name, and no previously stored row whose name
is not in `ds` remains associated. -/
def ReconcileOutcome (u : Nat) (oldEnts : List Entity) (ds : List String)
    (ents : List Entity) (assoc : List Nat) : Prop :=
  assoc.Nodup ∧
  (∀ i, i ∈ assoc ↔ ∃ e, e ∈ ents ∧ e.id = i ∧ e.user = u ∧ e.name ∈ ds) ∧
  (∀ n ∈ ds, ∃! i, i ∈ assoc ∧
    ∃ e, e ∈ ents ∧ e.id = i ∧ e.user = u ∧ e.name = n) ∧
  (∀ e ∈ oldEnts, e.name ∉ ds → e.id ∉ assoc)

theorem reconcile_outcome (s : Store) (u : Nat) (ds : List String)
    (hwf : s.Wf) :
    ∃ assoc' s', getOrCreateList s u ds [] = (assoc', s', none) ∧ s'.Wf ∧
      (∀ x ∈ s.entities, x ∈ s'.entities) ∧
      ReconcileOutcome u s.entities ds s'.entities assoc' := by
  obtain ⟨assoc', s', heq, hwf', hmono, hnd, hiff, hname⟩ :=
    reconcile_characterization s u ds hwf
  refine ⟨assoc', s', heq, hwf', hmono, hnd, hiff, ?_, ?_⟩
  · intro n hn
    obtain ⟨e, he, hu, hne, hid⟩ := hname n hn
    refine ⟨e.id, ⟨hid, e, he, rfl, hu, hne⟩, ?_⟩
    rintro j ⟨hj, e', he', rfl, hu', hn'⟩
    have : e' = e := hwf'.key_inj he' he (hu'.trans hu.symm) (hn'.trans hne.symm)
    rw [this]
  · intro e he hne hid
    rcases (hiff e.id).mp hid with ⟨e', he', hid', _, hn'⟩
    have : e' = e := hwf'.id_inj he' (hmono e he) hid'
    rw [this] at hn'
    exact hne hn'

/-- C1: for every present descriptor sequence passed for tags (and for
ingredients) to the reconciliation step of a recipe update for owner `u`,
the association set of that kind immediately afterwards is exactly one row
per distinct name in the sequence, each row owned by `u`, and every
previously stored row of that kind whose name is not in the sequence is no
longer associated with the recipe. -/
theorem reconcile_exact_associations (u : Nat) (db : Db) (r : Recipe)
    (D DI : List String) (sc : Scalars) (hwf : db.Wf) :
    (RecipeSerializer.update u db r (some D) (some DI) sc).error = none ∧
    ReconcileOutcome u db.tagStore.entities D
      (RecipeSerializer.update u db r (some D) (some DI) sc).db.tagStore.entities
      (RecipeSerializer.update u db r (some D) (some DI) sc).recipe.tags ∧
    ReconcileOutcome u db.ingStore.entities DI
      (RecipeSerializer.update u db r (some D) (some DI) sc).db.ingStore.entities
      (RecipeSerializer.update u db r (some D) (some DI) sc).recipe.ingredients := by
  obtain ⟨a1, ts, heq1, _, _, hout1⟩ := reconcile_outcome db.tagStore u D hwf.1
  obtain ⟨a2, ist, heq2, _, _, hout2⟩ := reconcile_outcome db.ingStore u DI hwf.2
  have hupd : RecipeSerializer.update u db r (some D) (some DI) sc =
      ⟨applyScalars { r with tags := a1, ingredients := a2 } sc,
        ⟨ts, ist⟩, none⟩ := by
    simp [RecipeSerializer.update, updateAfterTags, heq1, heq2]
  rw [hupd]
  exact ⟨rfl, hout1, hout2⟩

def dbEmpty : Db := ⟨⟨[], 0⟩, ⟨[], 0⟩⟩

def recipeSample : Recipe := ⟨7, 0, "Sample recipe title", "", 22, 1069, "", [3], [], none⟩

def scNone : Scalars := ⟨none, none, none, none⟩

theorem reconcile_exact_associations_witness :
    Db.Wf dbEmpty ∧
    ((RecipeSerializer.update 0 dbEmpty recipeSample (some ["Thai", "Thai", "Dinner"])
        (some ["salt"]) scNone).error = none ∧
     ReconcileOutcome 0 dbEmpty.tagStore.entities ["Thai", "Thai", "Dinner"]
       (RecipeSerializer.update 0 dbEmpty recipeSample (some ["Thai", "Thai", "Dinner"])
         (some ["salt"]) scNone).db.tagStore.entities
       (RecipeSerializer.update 0 dbEmpty recipeSample (some ["Thai", "Thai", "Dinner"])
         (some ["salt"]) scNone).recipe.tags ∧
     ReconcileOutcome 0 dbEmpty.ingStore.entities ["salt"]
       (RecipeSerializer.update 0 dbEmpty recipeSample (some ["Thai", "Thai", "Dinner"])
         (some ["salt"]) scNone).db.ingStore.entities
       (RecipeSerializer.update 0 dbEmpty recipeSample (some ["Thai", "Thai", "Dinner"])
         (some ["salt"]) scNone).recipe.ingredients) :=
  ⟨by decide, reconcile_exact_associations 0 dbEmpty recipeSample
    ["Thai", "Thai", "Dinner"] ["salt"] scNone (by decide)⟩

/-- C2: the get-or-create resolution is idempotent in the descriptor names.
Duplicate names inside one descriptor list resolve to one single row, and a
second reconciliation run with the same lists creates no new Tag or
Ingredient rows and associates the same rows again. -/
theorem reconcile_idempotent (u : Nat) (db : Db) (r : Recipe)
    (D DI : List String) (sc : Scalars) (hwf : db.Wf)
    (res1 res2 : UpdateResult)
    (h1 : res1 = RecipeSerializer.update u db r (some D) (some DI) sc)
    (h2 : res2 = RecipeSerializer.update u res1.db res1.recipe (some D) (some DI) sc) :
    res1.error = none ∧ res2.error = none ∧
    res2.db = res1.db ∧
    (∀ i, i ∈ res2.recipe.tags ↔ i ∈ res1.recipe.tags) ∧
    (∀ i, i ∈ res2.recipe.ingredients ↔ i ∈ res1.recipe.ingredients) ∧
    (∀ n ∈ D, ∃! i, i ∈ res1.recipe.tags ∧
      ∃ e, e ∈ res1.db.tagStore.entities ∧ e.id = i ∧ e.user = u ∧ e.name = n) ∧
    (∀ n ∈ DI, ∃! i, i ∈ res1.recipe.ingredients ∧
      ∃ e, e ∈ res1.db.ingStore.entities ∧ e.id = i ∧ e.user = u ∧ e.name = n) := by
  obtain ⟨a1, ts, heq1, hwfts, hmono1, hout1⟩ := reconcile_outcome db.tagStore u D hwf.1
  obtain ⟨a2, ist, heq2, hwfis, hmono2, hout2⟩ := reconcile_outcome db.ingStore u DI hwf.2
  have hupd1 : RecipeSerializer.update u db r (some D) (some DI) sc =
      ⟨applyScalars { r with tags := a1, ingredients := a2 } sc, ⟨ts, ist⟩, none⟩ := by
    simp [RecipeSerializer.update, updateAfterTags, heq1, heq2]
  have hexT : ∀ n ∈ D, ∃ e, e ∈ ts.entities ∧ e.user = u ∧ e.name = n := by
    intro n hn
    obtain ⟨i, ⟨hi, e, he, hid, hu, hnm⟩, -⟩ := hout1.2.2.1 n hn
    exact ⟨e, he, hu, hnm⟩
  have hexI : ∀ n ∈ DI, ∃ e, e ∈ ist.entities ∧ e.user = u ∧ e.name = n := by
    intro n hn
    obtain ⟨i, ⟨hi, e, he, hid, hu, hnm⟩, -⟩ := hout2.2.2.1 n hn
    exact ⟨e, he, hu, hnm⟩
  obtain ⟨b1, ts2, heqb1, hwfts2, hmonob1, houtb1⟩ := reconcile_outcome ts u D hwfts
  obtain ⟨b1', heqb1'⟩ := getOrCreateList_noCreate D ts u [] hwfts hexT
  have hb : b1 = b1' ∧ ts2 = ts := by
    have h := heqb1.symm.trans heqb1'
    simpa [Prod.ext_iff] using h
  obtain ⟨-, hts2⟩ := hb
  subst hts2
  obtain ⟨b2, ist2, heqb2, hwfis2, hmonob2, houtb2⟩ := reconcile_outcome ist u DI hwfis
  obtain ⟨b2', heqb2'⟩ := getOrCreateList_noCreate DI ist u [] hwfis hexI
  have hb2 : b2 = b2' ∧ ist2 = ist := by
    have h := heqb2.symm.trans heqb2'
    simpa [Prod.ext_iff] using h
  obtain ⟨-, hist2⟩ := hb2
  subst hist2
  have hupd2 : ∀ q : Recipe, RecipeSerializer.update u ⟨ts2, ist2⟩ q (some D) (some DI) sc =
      ⟨applyScalars { q with tags := b1, ingredients := b2 } sc, ⟨ts2, ist2⟩, none⟩ := by
    intro q
    simp [RecipeSerializer.update, updateAfterTags, heqb1, heqb2]
  subst h1 h2
  rw [hupd1]
  dsimp only
  rw [hupd2]
  dsimp only [applyScalars]
  refine ⟨rfl, rfl, rfl, ?_, ?_, ?_, ?_⟩
  · exact fun i => (houtb1.2.1 i).trans (hout1.2.1 i).symm
  · exact fun i => (houtb2.2.1 i).trans (hout2.2.1 i).symm
  · exact hout1.2.2.1
  · exact hout2.2.2.1

def res1W : UpdateResult :=
  RecipeSerializer.update 0 dbEmpty recipeSample (some ["Vegan", "Dinner"])
    (some ["salt"]) scNone

def res2W : UpdateResult :=
  RecipeSerializer.update 0 res1W.db res1W.recipe (some ["Vegan", "Dinner"])
    (some ["salt"]) scNone

theorem reconcile_idempotent_witness :
    Db.Wf dbEmpty ∧
    res1W = RecipeSerializer.update 0 dbEmpty recipeSample (some ["Vegan", "Dinner"])
      (some ["salt"]) scNone ∧
    res2W = RecipeSerializer.update 0 res1W.db res1W.recipe (some ["Vegan", "Dinner"])
      (some ["salt"]) scNone ∧
    (res1W.error = none ∧ res2W.error = none ∧
     res2W.db = res1W.db ∧
     (∀ i, i ∈ res2W.recipe.tags ↔ i ∈ res1W.recipe.tags) ∧
     (∀ i, i ∈ res2W.recipe.ingredients ↔ i ∈ res1W.recipe.ingredients) ∧
     (∀ n ∈ ["Vegan", "Dinner"], ∃! i, i ∈ res1W.recipe.tags ∧
       ∃ e, e ∈ res1W.db.tagStore.entities ∧ e.id = i ∧ e.user = 0 ∧ e.name = n) ∧
     (∀ n ∈ ["salt"], ∃! i, i ∈ res1W.recipe.ingredients ∧
       ∃ e, e ∈ res1W.db.ingStore.entities ∧ e.id = i ∧ e.user = 0 ∧ e.name = n)) :=
  ⟨by decide, rfl, rfl,
    reconcile_idempotent 0 dbEmpty recipeSample ["Vegan", "Dinner"] ["salt"] scNone
      (by decide) res1W res2W rfl rfl⟩

/-- C3: on update, an absent descriptor list of one kind leaves that kind
of association (and its table) completely unchanged, while an empty list
removes every association of that kind from the recipe yet leaves the
stored Tag or Ingredient rows in place. -/
theorem absent_vs_empty (u : Nat) (db : Db) (r : Recipe)
    (tags? ings? : Option (List String)) (sc : Scalars) :
    (RecipeSerializer.update u db r none ings? sc).recipe.tags = r.tags ∧
    (RecipeSerializer.update u db r none ings? sc).db.tagStore = db.tagStore ∧
    (RecipeSerializer.update u db r (some []) ings? sc).recipe.tags = [] ∧
    (RecipeSerializer.update u db r (some []) ings? sc).db.tagStore = db.tagStore ∧
    (RecipeSerializer.update u db r tags? none sc).recipe.ingredients = r.ingredients ∧
    (RecipeSerializer.update u db r tags? none sc).db.ingStore = db.ingStore ∧
    (RecipeSerializer.update u db r none (some []) sc).recipe.ingredients = [] ∧
    (RecipeSerializer.update u db r none (some []) sc).db.ingStore = db.ingStore := by
  refine ⟨?_, ?_, ?_, ?_, ?_, ?_, rfl, rfl⟩
  · cases ings? with
    | none => simp [RecipeSerializer.update, updateAfterTags, applyScalars]
    | some ds =>
      rcases h : getOrCreateList db.ingStore u ds [] with ⟨a, st, err⟩
      cases err <;>
        simp [RecipeSerializer.update, updateAfterTags, h, applyScalars]
  · cases ings? with
    | none => simp [RecipeSerializer.update, updateAfterTags, applyScalars]
    | some ds =>
      rcases h : getOrCreateList db.ingStore u ds [] with ⟨a, st, err⟩
      cases err <;>
        simp [RecipeSerializer.update, updateAfterTags, h, applyScalars]
  · cases ings? with
    | none =>
      simp [RecipeSerializer.update, getOrCreateList, updateAfterTags, applyScalars]
    | some ds =>
      rcases h : getOrCreateList db.ingStore u ds [] with ⟨a, st, err⟩
      cases err <;>
        simp [RecipeSerializer.update, getOrCreateList, updateAfterTags, h,
          applyScalars]
  · cases ings? with
    | none =>
      simp [RecipeSerializer.update, getOrCreateList, updateAfterTags, applyScalars]
    | some ds =>
      rcases h : getOrCreateList db.ingStore u ds [] with ⟨a, st, err⟩
      cases err <;>
        simp [RecipeSerializer.update, getOrCreateList, updateAfterTags, h,
          applyScalars]
  · cases tags? with
    | none => simp [RecipeSerializer.update, updateAfterTags, applyScalars]
    | some ds =>
      rcases h : getOrCreateList db.tagStore u ds [] with ⟨a, st, err⟩
      cases err <;>
        simp [RecipeSerializer.update, updateAfterTags, h, applyScalars]
  · cases tags? with
    | none => simp [RecipeSerializer.update, updateAfterTags, applyScalars]
    | some ds =>
      rcases h : getOrCreateList db.tagStore u ds [] with ⟨a, st, err⟩
      cases err <;>
        simp [RecipeSerializer.update, updateAfterTags, h, applyScalars]

theorem updateAfterTags_user (u : Nat) (db : Db) (r : Recipe)
    (ings? : Option (List String)) (sc : Scalars) :
    (updateAfterTags u db r ings? sc).recipe.user = r.user := by
  cases ings? with
  | none => simp [updateAfterTags, applyScalars]
  | some ds =>
    rcases h : getOrCreateList db.ingStore u ds [] with ⟨a, st, err⟩
    cases err <;> simp [updateAfterTags, h, applyScalars]

theorem update_user_eq (u : Nat) (db : Db) (r : Recipe)
    (tags? ings? : Option (List String)) (sc : Scalars) :
    (RecipeSerializer.update u db r tags? ings? sc).recipe.user = r.user := by
  cases tags? with
  | none => exact updateAfterTags_user u db r ings? sc
  | some ds =>
    rcases h : getOrCreateList db.tagStore u ds [] with ⟨a, st, err⟩
    cases err with
    | none =>
      have := updateAfterTags_user u ⟨st, db.ingStore⟩ { r with tags := a } ings? sc
      simpa [RecipeSerializer.update, h] using this
    | some e => simp [RecipeSerializer.update, h]

/-- C5: whatever the raw update request body contains, including an attempt
to set the `user` foreign key, the serializer validation built from
`RecipeSerializer.Meta` drops the `user` entry, so the stored owner after
the update equals the owner before it. -/
theorem update_ignores_user_field (u : Nat) (db : Db) (r : Recipe)
    (raw : RawInput) :
    (RecipeSerializer.update u db r raw.tags raw.ingredients
      (validatedScalars raw)).recipe.user = r.user :=
  update_user_eq u db r raw.tags raw.ingredients (validatedScalars raw)

/-- Modelled from the spec: the per-request transaction boundary around a
recipe update.  The Django settings and request-handling layer that decide
the transactional behaviour are not among the sources (only the serializer
is); the spec (section 5) prescribes that all resolved associations commit
together with the scalar changes or none do, with the state reverting to
its pre-request value on failure, while Tag or Ingredient rows created
before the failure may remain as orphans.  This wrapper runs the serializer
update and restores the pre-request recipe row when an error was raised. -/
def updateRequest (u : Nat) (db : Db) (r : Recipe)
    (tags? ings? : Option (List String)) (sc : Scalars) : UpdateResult :=
  match RecipeSerializer.update u db r tags? ings? sc with
  | ⟨r', db', none⟩ => ⟨r', db', none⟩
  | ⟨_, db', some e⟩ => ⟨r, db', some e⟩

/-- Modelled from the spec: the per-request transaction boundary around a
recipe create, as for `updateRequest`.  On failure no recipe row is
persisted (`none`), though entity rows created before the failure may
remain as orphan rows with no association. -/
def createRequest (u : Nat) (db : Db) (rid : Nat) (f : CreateFields)
    (tags ings : List String) : Option Recipe × Db × Option DbError :=
  match RecipeSerializer.create u db rid f tags ings with
  | ⟨r', db', none⟩ => (some r', db', none)
  | ⟨_, db', some e⟩ => (none, db', some e)

/-- C4: recipe create and update are atomic as observed by the caller:
when any part of the request fails, the persisted recipe state (scalar
fields and association sets) is exactly as before the request, and an
update failure leaves the pre-request recipe row untouched; only orphan
entity rows may remain. -/
theorem request_atomicity (u : Nat) (db : Db) (r : Recipe)
    (tags? ings? : Option (List String)) (sc : Scalars)
    (rid : Nat) (f : CreateFields) (tl il : List String) :
    ((updateRequest u db r tags? ings? sc).error ≠ none →
      (updateRequest u db r tags? ings? sc).recipe = r) ∧
    ((createRequest u db rid f tl il).2.2 ≠ none →
      (createRequest u db rid f tl il).1 = none) := by
  constructor
  · intro hne
    rcases h : RecipeSerializer.update u db r tags? ings? sc with ⟨r', db', err⟩
    cases err with
    | none => rw [updateRequest] at hne; rw [h] at hne; simp at hne
    | some e => rw [updateRequest]; rw [h]
  · intro hne
    rcases h : RecipeSerializer.create u db rid f tl il with ⟨r', db', err⟩
    cases err with
    | none => rw [createRequest] at hne; rw [h] at hne; simp at hne
    | some e => rw [createRequest]; rw [h]

def dbDup : Db := ⟨⟨[⟨0, 0, "A"⟩, ⟨1, 0, "A"⟩], 2⟩, ⟨[], 0⟩⟩

def fSample : CreateFields := ⟨"Thai Prawn Curry", 30, 1250, ""⟩

theorem request_atomicity_witness :
    (updateRequest 0 dbDup recipeSample (some ["A"]) none scNone).error ≠ none ∧
    (updateRequest 0 dbDup recipeSample (some ["A"]) none scNone).recipe = recipeSample ∧
    (createRequest 0 dbDup 9 fSample ["A"] []).2.2 ≠ none ∧
    (createRequest 0 dbDup 9 fSample ["A"] []).1 = none := by
  have h1 : (updateRequest 0 dbDup recipeSample (some ["A"]) none scNone).error ≠ none := by
    decide
  have h2 : (createRequest 0 dbDup 9 fSample ["A"] []).2.2 ≠ none := by
    decide
  exact ⟨h1,
    (request_atomicity 0 dbDup recipeSample (some ["A"]) none scNone 9 fSample
      ["A"] []).1 h1,
    h2,
    (request_atomicity 0 dbDup recipeSample (some ["A"]) none scNone 9 fSample
      ["A"] []).2 h2⟩

/-- C7 counterexample: the claim that no operation can persist a negative
`time_minutes` fails on the code.  `Recipe.time_minutes` is a plain
`models.IntegerField()` with no validator, so a create request carrying
`time_minutes = -5` succeeds and stores the negative value. -/
theorem time_minutes_negative_persisted :
    (RecipeSerializer.create 0 dbEmpty 1 ⟨"Sample", -5, 999, ""⟩ [] []).error = none ∧
    (RecipeSerializer.create 0 dbEmpty 1 ⟨"Sample", -5, 999, ""⟩ [] []).recipe.time_minutes = -5 ∧
    (RecipeSerializer.create 0 dbEmpty 1 ⟨"Sample", -5, 999, ""⟩ [] []).recipe.time_minutes < 0 := by
  decide

theorem updateAfterTags_tm (u : Nat) (db : Db) (r : Recipe)
    (ings? : Option (List String)) (sc : Scalars)
    (h : (updateAfterTags u db r ings? sc).error = none) :
    (updateAfterTags u db r ings? sc).recipe.time_minutes =
      sc.time_minutes.getD r.time_minutes := by
  cases ings? with
  | none => simp [updateAfterTags, applyScalars]
  | some ds =>
    rcases hds : getOrCreateList db.ingStore u ds [] with ⟨a, st, err⟩
    cases err with
    | none => simp [updateAfterTags, hds, applyScalars]
    | some e => rw [updateAfterTags] at h; rw [hds] at h; simp at h

/-- C7 amended: `time_minutes` is persisted exactly as supplied, with no
sign check anywhere in the model or serializer: a create stores the given
value verbatim (negative or not), and a successful update stores the
supplied value or keeps the previous one when the field is absent. -/
theorem time_minutes_persisted_unchecked (u : Nat) (db : Db) (rid : Nat)
    (f : CreateFields) (tl il : List String) (r : Recipe)
    (tags? ings? : Option (List String)) (sc : Scalars) :
    (RecipeSerializer.create u db rid f tl il).recipe.time_minutes = f.time_minutes ∧
    ((RecipeSerializer.update u db r tags? ings? sc).error = none →
      (RecipeSerializer.update u db r tags? ings? sc).recipe.time_minutes =
        sc.time_minutes.getD r.time_minutes) := by
  constructor
  · rcases h1 : getOrCreateList db.tagStore u tl [] with ⟨a, ts, err1⟩
    cases err1 with
    | none =>
      rcases h2 : getOrCreateList db.ingStore u il [] with ⟨a2, st, err2⟩
      cases err2 <;> simp [RecipeSerializer.create, h1, h2]
    | some e => simp [RecipeSerializer.create, h1]
  · intro h
    cases tags? with
    | none => exact updateAfterTags_tm u db r ings? sc h
    | some ds =>
      rcases hds : getOrCreateList db.tagStore u ds [] with ⟨a, st, err⟩
      cases err with
      | none =>
        have h' : (updateAfterTags u ⟨st, db.ingStore⟩ { r with tags := a }
            ings? sc).error = none := by
          rw [RecipeSerializer.update] at h; rw [hds] at h; exact h
        have := updateAfterTags_tm u ⟨st, db.ingStore⟩ { r with tags := a }
          ings? sc h'
        rw [RecipeSerializer.update]; rw [hds]
        simpa using this
      | some e => rw [RecipeSerializer.update] at h; rw [hds] at h; simp at h

theorem time_minutes_persisted_unchecked_witness :
    (RecipeSerializer.update 0 dbEmpty recipeSample (some ["A"]) none
      ⟨none, some 15, none, none⟩).error = none ∧
    ((RecipeSerializer.create 0 dbEmpty 2 fSample ["A"] ["B"]).recipe.time_minutes =
      fSample.time_minutes ∧
     ((RecipeSerializer.update 0 dbEmpty recipeSample (some ["A"]) none
        ⟨none, some 15, none, none⟩).error = none →
       (RecipeSerializer.update 0 dbEmpty recipeSample (some ["A"]) none
         ⟨none, some 15, none, none⟩).recipe.time_minutes =
         (Option.some (15 : Int)).getD recipeSample.time_minutes)) :=
  ⟨by decide,
    time_minutes_persisted_unchecked 0 dbEmpty 2 fSample ["A"] ["B"] recipeSample
      (some ["A"]) none ⟨none, some 15, none, none⟩⟩

/-- Outcome kinds surfaced by the API layer. -/
inductive ApiError where
  | notFound
  | serverError
deriving DecidableEq

/-- Modelled from the spec: the owner-scoped object lookup of the recipe
viewset (`recipe/views.py` is not among the sources; only its tests are).
Every read and write path is scoped to `owner == current authenticated
user`, so the detail lookup searches only the rows of the caller. -/
def findOwned (rs : List Recipe) (caller rid : Nat) : Option Recipe :=
  rs.find? fun x => x.id == rid && x.user == caller

/-- Modelled from the spec: the recipe delete endpoint (views are not among
the sources).  A lookup miss inside the owner-scoped queryset is surfaced
as not-found and changes nothing; a hit removes the row. -/
def destroyRecipe (rs : List Recipe) (caller rid : Nat) :
    List Recipe × Option ApiError :=
  match findOwned rs caller rid with
  | none => (rs, some .notFound)
  | some _ => (rs.filter fun x => !(x.id == rid && x.user == caller), none)

/-- Modelled from the spec: the recipe update endpoint (views are not among
the sources).  A lookup miss inside the owner-scoped queryset is surfaced
as not-found and changes nothing; a hit validates the body and runs
`RecipeSerializer.update` as the authenticated caller. -/
def updateRecipeApi (rs : List Recipe) (db : Db) (caller rid : Nat)
    (raw : RawInput) : (List Recipe × Db) × Option ApiError :=
  match findOwned rs caller rid with
  | none => ((rs, db), some .notFound)
  | some r =>
    match RecipeSerializer.update caller db r raw.tags raw.ingredients
        (validatedScalars raw) with
    | ⟨r', db', none⟩ =>
      ((rs.map fun x => if x.id == rid && x.user == caller then r' else x, db'),
        none)
    | ⟨_, db', some _⟩ => ((rs, db'), some .serverError)

theorem findOwned_other_owner {rs : List Recipe} {caller : Nat} {r : Recipe}
    (hnd : (rs.map Recipe.id).Nodup) (hr : r ∈ rs) (hne : r.user ≠ caller) :
    findOwned rs caller r.id = none := by
  rw [findOwned, List.find?_eq_none]
  intro x hx hP
  rw [Bool.and_eq_true, beq_iff_eq, beq_iff_eq] at hP
  have : x = r := nodup_map_inj hnd hx hr hP.1
  rw [this] at hP
  exact hne hP.2

/-- C6: an update or delete attempt on a recipe whose owner differs from
the calling authenticated user produces a not-found outcome, never
revealing the resource, and leaves the stored recipes (including the
target row itself) and the entity tables unmodified. -/
theorem cross_owner_not_found (rs : List Recipe) (db : Db) (caller : Nat)
    (r : Recipe) (raw : RawInput)
    (hnd : (rs.map Recipe.id).Nodup) (hr : r ∈ rs) (hne : r.user ≠ caller) :
    destroyRecipe rs caller r.id = (rs, some .notFound) ∧
    updateRecipeApi rs db caller r.id raw = ((rs, db), some .notFound) := by
  have h0 : findOwned rs caller r.id = none := findOwned_other_owner hnd hr hne
  constructor
  · rw [destroyRecipe, h0]
  · rw [updateRecipeApi, h0]

def recipeOther : Recipe := ⟨1, 1, "other", "", 1, 100, "", [], [], none⟩

def rawEmpty : RawInput := ⟨none, none, none, none, none, none, none, none⟩

theorem cross_owner_not_found_witness :
    (([recipeOther].map Recipe.id).Nodup ∧ recipeOther ∈ [recipeOther] ∧
      recipeOther.user ≠ 2) ∧
    (destroyRecipe [recipeOther] 2 recipeOther.id =
      ([recipeOther], some .notFound) ∧
     updateRecipeApi [recipeOther] dbEmpty 2 recipeOther.id rawEmpty =
      (([recipeOther], dbEmpty), some .notFound)) :=
  ⟨⟨by decide, by decide, by decide⟩,
    cross_owner_not_found [recipeOther] dbEmpty 2 recipeOther rawEmpty
      (by decide) (by decide) (by decide)⟩

/-- Modelled from the spec: the Tag and Ingredient list endpoint with its
`assigned_only` query filter (`recipe/views.py` is not among the sources;
only its tests are).  The listing is restricted to rows of the current
owner; with `assigned_only` set it is further restricted to rows referenced
by at least one recipe of the owner, with duplicate results eliminated.
`assocOf` selects which association set of a recipe is consulted
(`Recipe.tags` for the tag endpoint, `Recipe.ingredients` for the
ingredient endpoint). -/
def listEntities (s : Store) (recipes : List Recipe) (caller : Nat)
    (assigned_only : Bool) (assocOf : Recipe → List Nat) : List Entity :=
  let owned := s.entities.filter fun e => e.user == caller
  if assigned_only then
    (owned.filter fun e =>
      recipes.any fun x => x.user == caller && (assocOf x).any fun i => i == e.id).dedup
  else owned

/-- C8: listing tags or ingredients with `assigned_only` set returns
exactly the stored rows of the current owner referenced by at least one of
the owner recipes, each distinct row exactly once; unreferenced rows are
excluded. -/
theorem assigned_only_filter_exact (s : Store) (recipes : List Recipe)
    (caller : Nat) (assocOf : Recipe → List Nat) :
    (∀ e, e ∈ listEntities s recipes caller true assocOf ↔
      (e ∈ s.entities ∧ e.user = caller ∧
        ∃ x, x ∈ recipes ∧ x.user = caller ∧ e.id ∈ assocOf x)) ∧
    (listEntities s recipes caller true assocOf).Nodup := by
  constructor
  · intro e
    simp [listEntities, List.mem_filter, List.any_eq_true, and_assoc]
    tauto
  · simp only [listEntities, if_pos]
    exact List.nodup_dedup _

/-- The whitespace set stripped by the Python `str.strip()` call inside
`normalize_email`. -/
def isSpace (c : Char) : Bool :=
  c == ' ' || c == '\t' || c == '\n' || c == '\r' || c == '\x0b' || c == '\x0c'

/-- Python `email.strip()`: drop leading and trailing whitespace. -/
def trimChars (l : List Char) : List Char :=
  ((l.dropWhile isSpace).reverse.dropWhile isSpace).reverse

/-- Split a character list at the LAST occurrence of `sep`, as Python
`rsplit(sep, 1)` and `rfind` do; `none` when `sep` does not occur. -/
def splitLastAt (sep : Char) : List Char → Option (List Char × List Char)
  | [] => none
  | c :: cs =>
    match splitLastAt sep cs with
    | some (l, r) => some (c :: l, r)
    | none => if c = sep then some ([], cs) else none

/-- Python `str.lower()` on a character list (ASCII inputs). -/
def lowerL (l : List Char) : List Char := l.map Char.toLower

/-- `BaseUserManager.normalize_email` as called by
`UserManager.create_user` (`core/models.py`); the framework strips the
email, splits it at the last `@`, and lowercases only the domain part,
leaving the name part untouched; an email without `@` is returned as it
came in.  The repository test `test_new_user_email_normalized` pins exactly
this behaviour. -/
def normalize_email (email : String) : String :=
  match splitLastAt '@' (trimChars email.toList) with
  | none => email
  | some (np, dp) => String.mk (np ++ '@' :: lowerL dp)

/-- `UserManager.create_user` (`core/models.py`), restricted to the stored
email, the object of claim C9: reject an empty email with `ValueError`,
otherwise store the normalized email. -/
def UserManager.create_user (email : String) : Except String String :=
  if email = "" then .error "User must have an email address."
  else .ok (normalize_email email)

theorem splitLastAt_eq_none {sep : Char} {l : List Char} (h : sep ∉ l) :
    splitLastAt sep l = none := by
  induction l with
  | nil => rfl
  | cons c cs ih =>
    have h1 : sep ∉ cs := fun hc => h (List.mem_cons_of_mem _ hc)
    have h2 : c ≠ sep := fun hc => h (hc ▸ List.mem_cons_self _ _)
    simp [splitLastAt, ih h1, h2]

theorem splitLastAt_append {sep : Char} (np : List Char) {dp : List Char}
    (h : sep ∉ dp) :
    splitLastAt sep (np ++ sep :: dp) = some (np, dp) := by
  induction np with
  | nil => simp [splitLastAt, splitLastAt_eq_none h]
  | cons c cs ih => simp [splitLastAt, ih]

theorem string_mk_at_ne_empty (np dp : List Char) :
    String.mk (np ++ '@' :: dp) ≠ "" := by
  intro h
  have h2 : np ++ '@' :: dp = ([] : List Char) := congrArg String.data h
  simp at h2

theorem normalize_email_split (np dp : List Char) (hdp : '@' ∉ dp)
    (ht : trimChars (np ++ '@' :: dp) = np ++ '@' :: dp) :
    normalize_email (String.mk (np ++ '@' :: dp)) =
      String.mk (np ++ '@' :: lowerL dp) := by
  unfold normalize_email
  have htl : (String.mk (np ++ '@' :: dp)).toList = np ++ '@' :: dp := rfl
  rw [htl, ht, splitLastAt_append np hdp]

/-- C9 counterexample: two input emails differing only in letter case are
NOT always stored as the same email.  Only the domain part is lowercased;
the local part keeps its case, exactly as the repository test pins. -/
theorem email_case_not_collapsed :
    lowerL ("TEST3@EXAMPLE.COM".toList) = lowerL ("test3@example.com".toList) ∧
    UserManager.create_user "TEST3@EXAMPLE.COM" = .ok "TEST3@example.com" ∧
    UserManager.create_user "test3@example.com" = .ok "test3@example.com" ∧
    UserManager.create_user "TEST3@EXAMPLE.COM" ≠
      UserManager.create_user "test3@example.com" := by
  have e1 : UserManager.create_user "TEST3@EXAMPLE.COM" =
      .ok "TEST3@example.com" := rfl
  have e2 : UserManager.create_user "test3@example.com" =
      .ok "test3@example.com" := rfl
  refine ⟨by decide, e1, e2, ?_⟩
  rw [e1, e2]
  intro h
  exact absurd (Except.ok.inj h) (by decide)

/-- C9 amended: user creation stores `normalize_email` of the input: the
domain part after the last `@` is lowercased and the local part is kept
verbatim, so two inputs differing only in the case of the DOMAIN part are
stored as the same email, while local-part case is preserved. -/
theorem email_domain_normalized (np dp1 dp2 : List Char)
    (h1 : '@' ∉ dp1) (h2 : '@' ∉ dp2)
    (ht1 : trimChars (np ++ '@' :: dp1) = np ++ '@' :: dp1)
    (ht2 : trimChars (np ++ '@' :: dp2) = np ++ '@' :: dp2)
    (hcase : lowerL dp1 = lowerL dp2) :
    UserManager.create_user (String.mk (np ++ '@' :: dp1)) =
      .ok (String.mk (np ++ '@' :: lowerL dp1)) ∧
    UserManager.create_user (String.mk (np ++ '@' :: dp1)) =
      UserManager.create_user (String.mk (np ++ '@' :: dp2)) := by
  have e1 : UserManager.create_user (String.mk (np ++ '@' :: dp1)) =
      .ok (String.mk (np ++ '@' :: lowerL dp1)) := by
    rw [UserManager.create_user, if_neg (string_mk_at_ne_empty np dp1),
      normalize_email_split np dp1 h1 ht1]
  have e2 : UserManager.create_user (String.mk (np ++ '@' :: dp2)) =
      .ok (String.mk (np ++ '@' :: lowerL dp2)) := by
    rw [UserManager.create_user, if_neg (string_mk_at_ne_empty np dp2),
      normalize_email_split np dp2 h2 ht2]
  refine ⟨e1, ?_⟩
  rw [e1, e2, hcase]

theorem email_domain_normalized_witness :
    ('@' ∉ "ExAmple.com".toList ∧ '@' ∉ "example.com".toList ∧
     trimChars ("Test2".toList ++ '@' :: "ExAmple.com".toList) =
       "Test2".toList ++ '@' :: "ExAmple.com".toList ∧
     trimChars ("Test2".toList ++ '@' :: "example.com".toList) =
       "Test2".toList ++ '@' :: "example.com".toList ∧
     lowerL "ExAmple.com".toList = lowerL "example.com".toList) ∧
    (UserManager.create_user
        (String.mk ("Test2".toList ++ '@' :: "ExAmple.com".toList)) =
      .ok (String.mk ("Test2".toList ++ '@' :: lowerL "ExAmple.com".toList)) ∧
     UserManager.create_user
        (String.mk ("Test2".toList ++ '@' :: "ExAmple.com".toList)) =
      UserManager.create_user
        (String.mk ("Test2".toList ++ '@' :: "example.com".toList))) :=
  ⟨⟨by decide, by decide, by decide, by decide, by decide⟩,
    email_domain_normalized "Test2".toList "ExAmple.com".toList
      "example.com".toList (by decide) (by decide) (by decide) (by decide)
      (by decide)⟩

/-- `PurePath(filename).name`: the final path component, the text after the
last slash. -/
def pathName (filename : List Char) : List Char :=
  match splitLastAt '/' filename with
  | some (_, r) => r
  | none => filename

/-- `PurePath(filename).suffix`: the text from the last dot of the final
component, provided that dot is neither the first nor the last character of
the component; otherwise the empty suffix. -/
def pathSuffix (filename : List Char) : List Char :=
  match splitLastAt '.' (pathName filename) with
  | none => []
  | some (base, ext) => if base = [] ∨ ext = [] then [] else '.' :: ext

/-- `recipe_image_file_path(instance, filename)` (`core/models.py`): the
new storage path is `uploads/recipe/` followed by a fresh UUID and the
suffix of the caller-supplied filename.  The unused `instance` parameter is
dropped and the `uuid.uuid4()` value is passed in as `uuidStr` (the
repository test mocks it the same way). -/
def recipe_image_file_path (uuidStr : String) (filename : String) : String :=
  "uploads/recipe/" ++ uuidStr ++ String.mk (pathSuffix filename.toList)

theorem string_append_mk_nil (s : String) : s ++ String.mk [] = s := by
  cases s with
  | mk l =>
    show String.mk (l ++ []) = String.mk l
    rw [List.append_nil]

/-- C10: the generated storage path is `uploads/recipe/` + fresh UUID +
original extension: only the extension of the caller-supplied filename
survives (a filename without dot or slash contributes nothing), so the
original base name never reaches the stored path. -/
theorem image_path_uuid_extension (uuidStr : String) (base ext fn : List Char)
    (hb : base ≠ []) (he : ext ≠ [])
    (hsb : '/' ∉ base) (hse : '/' ∉ ext) (hde : '.' ∉ ext)
    (hfd : '.' ∉ fn) (hfs : '/' ∉ fn) :
    recipe_image_file_path uuidStr (String.mk (base ++ '.' :: ext)) =
      "uploads/recipe/" ++ uuidStr ++ String.mk ('.' :: ext) ∧
    recipe_image_file_path uuidStr (String.mk fn) =
      "uploads/recipe/" ++ uuidStr := by
  constructor
  · have hslash : '/' ∉ base ++ '.' :: ext := by
      intro hmem
      rcases List.mem_append.mp hmem with h | h
      · exact hsb h
      · rcases List.mem_cons.mp h with h | h
        · exact absurd h (by decide)
        · exact hse h
    have h1 : pathSuffix (base ++ '.' :: ext) = '.' :: ext := by
      unfold pathSuffix pathName
      rw [splitLastAt_eq_none hslash, splitLastAt_append base hde]
      simp [hb, he]
    unfold recipe_image_file_path
    rw [show (String.mk (base ++ '.' :: ext)).toList = base ++ '.' :: ext from rfl,
      h1]
  · have h1 : pathSuffix fn = [] := by
      unfold pathSuffix pathName
      rw [splitLastAt_eq_none hfs, splitLastAt_eq_none hfd]
    unfold recipe_image_file_path
    rw [show (String.mk fn).toList = fn from rfl, h1, string_append_mk_nil]

theorem image_path_uuid_extension_witness :
    ("example".toList ≠ [] ∧ "jpg".toList ≠ [] ∧
     '/' ∉ "example".toList ∧ '/' ∉ "jpg".toList ∧ '.' ∉ "jpg".toList ∧
     '.' ∉ "noextension".toList ∧ '/' ∉ "noextension".toList) ∧
    (recipe_image_file_path "test-uuid"
        (String.mk ("example".toList ++ '.' :: "jpg".toList)) =
      "uploads/recipe/" ++ "test-uuid" ++ String.mk ('.' :: "jpg".toList) ∧
     recipe_image_file_path "test-uuid" (String.mk "noextension".toList) =
      "uploads/recipe/" ++ "test-uuid") :=
  ⟨⟨by decide, by decide, by decide, by decide, by decide, by decide, by decide⟩,
    image_path_uuid_extension "test-uuid" "example".toList "jpg".toList
      "noextension".toList (by decide) (by decide) (by decide) (by decide)
      (by decide) (by decide) (by decide)⟩
